import Mathlib

/-!
Verification development for the `source_excel_sheets` worksheet-extraction
pipeline (`utils.py`, `client.py`, `streams.py`).  Python functions are
shallowly embedded as executable Lean definitions; stateful loops become
fuel-based structural recursion (the fuel is always provably sufficient),
fallible code returns `Option`/`Except`, and Python `float` cell values are
modelled as rationals.
-/

namespace ExcelSheets

/-! ## Basic string helpers (models of the Python string primitives used) -/

/-- Model of ASCII lowercasing of one character, as Python `str.lower` acts on
the ASCII range (the source only ever lowercases strings that a preceding
`re.sub('[^a-zA-Z0-9]+', '_', ...)` has reduced to ASCII). -/
def lowerChar (c : Char) : Char :=
  if 65 ≤ c.toNat ∧ c.toNat ≤ 90 then Char.ofNat (c.toNat + 32) else c

/-- Model of Python `str.lower` (ASCII range). -/
def pyLower (s : String) : String := String.mk (s.data.map lowerChar)

/-- Model of Python `str.strip()` with no arguments: drop leading and trailing
whitespace. -/
def pyStrip (s : String) : String :=
  String.mk (((s.data.dropWhile Char.isWhitespace).reverse.dropWhile
      Char.isWhitespace).reverse)

/-- Substring test on character lists: `listHasSub n h` is true iff `n` occurs
contiguously in `h` (model of Python `n in h`). -/
def listHasSub (n : List Char) : List Char → Bool
  | [] => n.isEmpty
  | c :: t => n.isPrefixOf (c :: t) || listHasSub n t

/-- Model of the Python substring operator `sub in s`. -/
def containsSub (s sub : String) : Bool := listHasSub sub.data s.data

/-! ## Cell values

Cell values arriving from the workbook API JSON are `null`, strings, integers
or floats.  Floats are modelled as rationals; the decimal rendering of a
non-integral float (Python `repr` shortest-roundtrip rendering) is abstracted
by a placeholder — no claim in this development depends on it. -/

inductive CellValue where
  | null : CellValue
  | str (s : String) : CellValue
  | int (n : Int) : CellValue
  | num (q : ℚ) : CellValue
deriving DecidableEq, Repr

/-- Decimal rendering of an Int, as Python `str` on `int`. -/
def intStr (n : Int) : String :=
  if n < 0 then "-" ++ Nat.repr n.natAbs else Nat.repr n.natAbs

/-- Model of Python `str(value)` on cell values.  `str(None) = "None"`,
strings are themselves, integers render in decimal; a float with integral
value renders as `"<n>.0"`, and the rendering of non-integral floats is
abstracted (unused by every claim). -/
def pyStr : CellValue → String
  | .null => "None"
  | .str s => s
  | .int n => intStr n
  | .num q => if q.den = 1 then intStr q.num ++ ".0"
      else intStr q.num ++ "/" ++ Nat.repr q.den

/-- Model of Python truthiness on cell values (`None` and `""` and `0` are
falsy). -/
def pyTruthy : CellValue → Bool
  | .null => false
  | .str s => s ≠ ""
  | .int n => n ≠ 0
  | .num q => q ≠ 0

def CellValue.isNull : CellValue → Bool
  | .null => true
  | _ => false

/-! ## Model of Python `float(value)`

`float` on a string accepts, after stripping surrounding whitespace, an
optional sign followed by `infinity`/`inf`/`nan` (case-insensitive) or a
decimal literal per the CPython grammar

  number    ::= (digitpart ["." [digitpart]] | "." digitpart) [exponent]
  exponent  ::= ("e" | "E") [("+" | "-")] digitpart
  digitpart ::= digit (["_"] digit)*

(PEP 515 underscores are allowed only between digits).  Finite values are
modelled exactly as rationals.  The non-finite results `inf`/`nan` have no
rational value and are modelled as `none`; this cannot be observed through
`parse_excel_value`, which emits `str(value)` both for a failed parse and for
a parsed value outside `[1, 100000]` (`inf` exceeds the bound and every `nan`
comparison is false).  Non-ASCII digits (which `float` also accepts) are out
of scope.  On a non-numeric string `float` raises `ValueError`, modelled as
`none`; on `None` it raises `TypeError`, also `none`. -/

/-- Consume one Python `digitpart` continuation: accumulate decimal digits,
allowing a single underscore between two digits; return the value, the
number of digits consumed, and the remaining characters. -/
def digitPartAux : Nat → Nat → List Char → Nat × Nat × List Char
  | acc, n, [] => (acc, n, [])
  | acc, n, c :: cs =>
      if c.isDigit then digitPartAux (acc * 10 + (c.toNat - 48)) (n + 1) cs
      else if c = '_' then
        match cs with
        | d :: cs' =>
            if d.isDigit then
              digitPartAux (acc * 10 + (d.toNat - 48)) (n + 1) cs'
            else (acc, n, c :: cs)
        | [] => (acc, n, c :: cs)
      else (acc, n, c :: cs)

/-- Parse a Python `digitpart` (must start with a digit). -/
def digitPart (cs : List Char) : Option (Nat × Nat × List Char) :=
  match cs with
  | c :: _ => if c.isDigit then some (digitPartAux 0 0 cs) else none
  | [] => none

/-- Scale a mantissa by the exponent part. -/
def applyExp (m : ℚ) (neg : Bool) (k : Nat) : ℚ :=
  if neg then m / (10 : ℚ) ^ k else m * (10 : ℚ) ^ k

/-- Parse the optional exponent after the mantissa; the input must be fully
consumed. -/
def afterMantissa (m : ℚ) : List Char → Option ℚ
  | [] => some m
  | e :: rest =>
      if e = 'e' ∨ e = 'E' then
        let p := match rest with
          | '+' :: r => (false, r)
          | '-' :: r => (true, r)
          | r => (false, r)
        match digitPart p.2 with
        | some (k, _, []) => some (applyExp m p.1 k)
        | _ => none
      else none

/-- Parse an unsigned Python float literal (integer part, optional fraction,
optional exponent), requiring full consumption of the input. -/
def parseNumber (cs : List Char) : Option ℚ :=
  match digitPart cs with
  | some (ip, _, rest) =>
      match rest with
      | '.' :: rest2 =>
          match digitPart rest2 with
          | some (fp, fn, rest3) =>
              afterMantissa ((ip : ℚ) + (fp : ℚ) / (10 : ℚ) ^ fn) rest3
          | none => afterMantissa ((ip : ℚ)) rest2
      | _ => afterMantissa ((ip : ℚ)) rest
  | none =>
      match cs with
      | '.' :: rest2 =>
          match digitPart rest2 with
          | some (fp, fn, rest3) =>
              afterMantissa ((fp : ℚ) / (10 : ℚ) ^ fn) rest3
          | none => none
      | _ => none

/-- Whether the (already sign-stripped) characters spell `inf`, `infinity`
or `nan`, case-insensitively: Python parses these to non-finite floats,
modelled as parse failures (see the section comment). -/
def isInfNan (cs : List Char) : Bool :=
  let l := cs.map lowerChar
  l = "inf".data || l = "infinity".data || l = "nan".data

def parseFloat (s : String) : Option ℚ :=
  match (pyStrip s).data with
  | '+' :: cs => if isInfNan cs then none else parseNumber cs
  | '-' :: cs => if isInfNan cs then none else (parseNumber cs).map Neg.neg
  | cs => if isInfNan cs then none else parseNumber cs

/-- Model of Python `float(value)` on a cell value. -/
def pyFloat : CellValue → Option ℚ
  | .null => none
  | .str s => parseFloat s
  | .int n => some (n : ℚ)
  | .num q => some q

/-! ## `excel_column_label` (utils.py)

Converts a 0-based column index to an Excel column letter.  The Python
`while col_index > 0` loop becomes fuel-based recursion; the fuel `i + 2`
always exceeds the number of iterations (each iteration divides by 26). -/

def labelLoop : Nat → Nat → String
  | 0, _ => ""
  | _, 0 => ""
  | fuel + 1, k + 1 =>
      labelLoop fuel (k / 26) ++ String.singleton (Char.ofNat (65 + k % 26))

def excel_column_label (i : Nat) : String := labelLoop (i + 2) (i + 1)

/-! ## `normalize_column_name` (utils.py)

The `unidecode.unidecode` transliteration table is a parameter `td`; the
relevant facts about the real library (identity on ASCII strings) enter the
theorems as hypotheses.  `re.sub(r'[^a-zA-Z0-9]+', '_', name)` is modelled by
`subNA`: every maximal run of non-alphanumeric characters becomes a single
underscore. -/

/-- The character class of the regex `[a-zA-Z0-9]` (ASCII digits, upper- and
lower-case letters), stated on code points. -/
def isAsciiAlnum (c : Char) : Bool :=
  decide ((48 ≤ c.toNat ∧ c.toNat ≤ 57) ∨ (65 ≤ c.toNat ∧ c.toNat ≤ 90) ∨
    (97 ≤ c.toNat ∧ c.toNat ≤ 122))

/-- The character class `[0-9]` (Python `str.isdigit` on the ASCII texts this
pipeline produces), stated on code points. -/
def isAsciiDigit (c : Char) : Bool :=
  decide (48 ≤ c.toNat ∧ c.toNat ≤ 57)

/-- Replace every maximal run of characters outside `[a-zA-Z0-9]` by one
underscore (model of `re.sub(r'[^a-zA-Z0-9]+', '_', ·)`): on a
non-alphanumeric head, the underscore already contributed by the rest of the
same run is reused rather than duplicated. -/
def subNA : List Char → List Char
  | [] => []
  | c :: cs =>
      if isAsciiAlnum c then c :: subNA cs
      else if (subNA cs).head? = some '_' then subNA cs else '_' :: subNA cs

/-- Model of Python `str.strip('_')`: drop leading and trailing underscores. -/
def stripU (cs : List Char) : List Char :=
  ((cs.dropWhile (· = '_')).reverse.dropWhile (· = '_')).reverse

/-- Whether a character list starts with an ASCII digit (Python
`name[0].isdigit()`). -/
def headIsDigit : List Char → Bool
  | [] => false
  | c :: _ => isAsciiDigit c

/-- Model of `normalize_column_name(name, names_conversion)`;
`td` stands for `unidecode.unidecode`. -/
def normalize_column_name (td : String → String) (name : String)
    (names_conversion : Bool) : String :=
  if names_conversion = false ∨ name = "" then name
  else
    let a := (td name).data
    let b := subNA a
    let c := stripU b
    let d := if headIsDigit c then '_' :: c else c
    let e := d.map lowerChar
    if e = [] then "column" else String.mk e

/-- Shape invariant satisfied by every non-empty output of
conversion-enabled `normalize_column_name`: only `[a-zA-Z0-9_]` characters
with no two adjacent underscores, already lowercase, no trailing underscore,
a leading underscore only as the digit-prefix (followed by a digit), and a
non-digit first character otherwise. -/
def NormShape (cs : List Char) : Prop :=
  (∀ c ∈ cs, isAsciiAlnum c = true ∨ c = '_') ∧
  List.Chain' (fun a b => ¬(a = '_' ∧ b = '_')) cs ∧
  cs.map lowerChar = cs ∧
  cs.getLast? ≠ some '_' ∧
  (cs.head? = some '_' → headIsDigit cs.tail = true) ∧
  (cs.head? ≠ some '_' → headIsDigit cs = false)

/-! ## `deduplicate_headers` and `process_headers` (utils.py)

The Python `seen` dict stores a count per original header, but only key
membership is ever read; it is modelled as the list of headers seen so far. -/

def dedupAux : List String → Nat → List String → List String
  | [], _, _ => []
  | h :: t, idx, seen =>
      if h ∈ seen then
        (h ++ "_" ++ excel_column_label idx ++ "1") :: dedupAux t (idx + 1) seen
      else
        h :: dedupAux t (idx + 1) (h :: seen)

/-- Model of `deduplicate_headers(headers)`. -/
def deduplicate_headers (headers : List String) : List String :=
  dedupAux headers 0 []

/-- Model of `process_headers(raw_headers, names_conversion)`: normalize when
requested, deduplicate, and build the index mapping
`{idx: header for idx, header in enumerate(headers) if header}` (Python keeps
an index exactly when its final header string is truthy, i.e. non-empty). -/
def process_headers (td : String → String) (raw_headers : List String)
    (names_conversion : Bool) : List String × List (Nat × String) :=
  let headers := raw_headers.map (fun h => normalize_column_name td h names_conversion)
  let headers := deduplicate_headers headers
  (headers, headers.enum.filter (fun p => p.2 ≠ ""))

/-! ## `excel_serial_to_date` (utils.py)

The source computes `datetime(1899, 12, 30) + timedelta(days=serial)` and
formats with `strftime("%Y-%m-%d")`.  CPython's `datetime` date arithmetic is
proleptic-Gregorian ordinal arithmetic: the model converts the epoch ordinal
plus the (adjusted) serial back to a `(year, month, day)` triple.  The year
is found by stripping whole years starting from year 1 (fuel-based; fuel `n`
always suffices since every year has at least 365 days) and the month by
stripping at most 11 months.  CPython raises `OverflowError` outside ordinals
`[1, 3652059]` (years 1..9999); the model is total instead, and the
correspondence with the source holds on the representable range. -/

def isLeap (y : Nat) : Bool := y % 4 = 0 && (y % 100 ≠ 0 || y % 400 = 0)

def daysInYear (y : Nat) : Nat := if isLeap y then 366 else 365

def daysInMonth (y m : Nat) : Nat :=
  if m = 2 then (if isLeap y then 29 else 28)
  else if m = 4 ∨ m = 6 ∨ m = 9 ∨ m = 11 then 30
  else 31

/-- Strip whole years: from year `y` with `n` remaining days, return the year
containing day `n` and the 0-based day-of-year. -/
def stripYears : Nat → Nat → Nat → Nat × Nat
  | y, n, 0 => (y, n)
  | y, n, fuel + 1 =>
      if n < daysInYear y then (y, n)
      else stripYears (y + 1) (n - daysInYear y) fuel

/-- Strip whole months of year `y`: from month `m` with `n` remaining days,
return the month containing day `n` and the 0-based day-of-month. -/
def stripMonths (y : Nat) : Nat → Nat → Nat → Nat × Nat
  | m, n, 0 => (m, n)
  | m, n, fuel + 1 =>
      if n < daysInMonth y m then (m, n)
      else stripMonths y (m + 1) (n - daysInMonth y m) fuel

/-- Total day count of `k` consecutive months of year `y` starting at month
`m` (used to state the `stripMonths` invariant). -/
def sumMonths (y m : Nat) : Nat → Nat
  | 0 => 0
  | k + 1 => daysInMonth y m + sumMonths y (m + 1) k

/-- Convert a 0-based day count since 0001-01-01 to `(year, month, day)`. -/
def fromOrdinal (n : Nat) : Nat × Nat × Nat :=
  ((stripYears 1 n n).1,
   (stripMonths (stripYears 1 n n).1 1 (stripYears 1 n n).2 11).1,
   (stripMonths (stripYears 1 n n).1 1 (stripYears 1 n n).2 11).2 + 1)

/-- Days from 0001-01-01 to the first day of year `y` (CPython
`_days_before_year`). -/
def daysBeforeYear (y : Nat) : Nat :=
  (y - 1) * 365 + (y - 1) / 4 - (y - 1) / 100 + (y - 1) / 400

/-- The 0-based ordinal of the source's epoch `datetime(1899, 12, 30)`. -/
def epochOrdinal : Int := (daysBeforeYear 1900 : Int) - 2

/-- The decimal digit character for `n % 10`. -/
def digitChar (n : Nat) : Char :=
  if n % 10 = 0 then '0' else if n % 10 = 1 then '1' else if n % 10 = 2 then '2'
  else if n % 10 = 3 then '3' else if n % 10 = 4 then '4'
  else if n % 10 = 5 then '5' else if n % 10 = 6 then '6'
  else if n % 10 = 7 then '7' else if n % 10 = 8 then '8' else '9'

/-- Zero-padded 2-digit rendering, as `strftime` `%m` / `%d`. -/
def pad2 (n : Nat) : List Char := [digitChar (n / 10), digitChar n]

/-- Zero-padded 4-digit rendering, as CPython `strftime` `%Y` for the years
1..9999 that `datetime` supports (larger years, unrepresentable in the
source, are truncated to their last four digits). -/
def pad4 (n : Nat) : List Char :=
  [digitChar (n / 1000), digitChar (n / 100), digitChar (n / 10), digitChar n]

/-- Model of `date.strftime("%Y-%m-%d")`. -/
def formatYMD : Nat × Nat × Nat → String
  | (y, m, d) => String.mk (pad4 y ++ '-' :: pad2 m ++ '-' :: pad2 d)

/-- Model of `excel_serial_to_date(serial_number)`.  Serial numbers reaching
this function are integral (the caller checks `float_val == int(float_val)`),
so the argument is an `Int`. -/
def excel_serial_to_date (serial_number : Int) : String :=
  let adjusted := if 60 ≤ serial_number then serial_number - 1 else serial_number
  formatYMD (fromOrdinal (epochOrdinal + adjusted).toNat)

/-! ## `is_excel_date_column` and `parse_excel_value` (utils.py) -/

def date_keywords : List String :=
  ["date", "time", "created", "updated", "modified", "expires", "due", "deadline"]

/-- Model of `is_excel_date_column(column_name)`: some keyword is a
case-insensitive substring of the column name. -/
def is_excel_date_column (column_name : String) : Bool :=
  date_keywords.any (fun k => containsSub (pyLower column_name) k)

/-- Model of `parse_excel_value(value, column_name, parse_dates)`: `None`
results (the Python function returning `None`) become `none`; the
`try/except` around `float(value)` becomes the `Option` returned by
`pyFloat`, with failure falling through to string emission.
`float_val == int(float_val)` (truncation) holds exactly when the rational
has denominator 1. -/
def parse_excel_value (value : CellValue) (column_name : String)
    (parse_dates : Bool) : Option String :=
  if value.isNull ∨ pyStrip (pyStr value) = "" then none
  else if parse_dates && is_excel_date_column column_name then
    match pyFloat value with
    | some float_val =>
        if 1 ≤ float_val ∧ float_val ≤ 100000 ∧ float_val.den = 1 then
          some (excel_serial_to_date float_val.num)
        else some (pyStr value)
    | none => some (pyStr value)
  else some (pyStr value)

/-! ## `ExcelSheetsClient.get_worksheet_data` (client.py)

The HTTP exchange is modelled by its response: a status code, the parsed
JSON body as a cell block, and the `error.message` field the source reads
from the body of a failed response.  Raising `Exception` is modelled as
`Except.error`. -/

structure CellBlock where
  values : List (List CellValue)
  rowCount : Nat
  columnCount : Nat
deriving DecidableEq, Repr

structure HttpResponse where
  status : Nat
  body : CellBlock
  errorMessage : String

/-- Model of `get_worksheet_data`'s handling of the range-fetch response:
404 is normalized to an empty cell block, any other non-200 raises with the
upstream message, 200 returns the parsed body. -/
def get_worksheet_data (resp : HttpResponse) : Except String CellBlock :=
  if resp.status = 404 then Except.ok ⟨[], 0, 0⟩
  else if resp.status ≠ 200 then
    Except.error ("Failed to get worksheet data: " ++ resp.errorMessage)
  else Except.ok resp.body

/-! ## `ExcelWorksheetStream` (streams.py)

Configuration fields with their `config.get` defaults. -/

structure Config where
  batch_size : Nat := 1000000
  names_conversion : Bool := false
  parse_dates : Bool := true

/-- Header cells are typed `List[str]` in the source (`process_headers`);
the API delivers header text as JSON strings.  A cell outside that typed
contract is mapped canonically. -/
def headerCellString : CellValue → String
  | .str s => s
  | .null => ""
  | v => pyStr v

/-- Model of the row-skipping test
`any(cell for cell in row if cell is not None and str(cell).strip())`:
the generator yields `cell` for cells passing the filter, and `any` then
tests the cell's own truthiness. -/
def rowNotBlank (row : List CellValue) : Bool :=
  row.any (fun cell =>
    (!cell.isNull) && pyStrip (pyStr cell) ≠ "" && pyTruthy cell)

/-- Python dict insertion: an existing key keeps its position and gets the
new value, a new key is appended. -/
def recordInsert (r : List (String × String)) (k v : String) :
    List (String × String) :=
  if r.any (fun p => p.1 = k) then
    r.map (fun p => if p.1 = k then (k, v) else p)
  else r ++ [(k, v)]

/-- Model of the record-assembly loop
`for idx, header in index_mapping.items(): if idx < len(row): ...`:
indices beyond the row length contribute nothing, and only non-`None`
coerced values are inserted. -/
def buildRecord (parse_dates : Bool) (index_mapping : List (Nat × String))
    (row : List CellValue) : List (String × String) :=
  index_mapping.foldl (fun r p =>
    if p.1 < row.length then
      match parse_excel_value (row.getD p.1 CellValue.null) p.2 parse_dates with
      | some v => recordInsert r p.2 v
      | none => r
    else r) []

/-- Records produced from one fetched batch: skip blank rows, build records,
yield only non-empty ones. -/
def batchRecords (parse_dates : Bool) (index_mapping : List (Nat × String))
    (blk : CellBlock) : List (List (String × String)) :=
  ((blk.values.filter rowNotBlank).map (buildRecord parse_dates index_mapping)).filter
    (fun r => r ≠ [])

/-- The `while current_row <= total_rows` pagination loop of `read_records`,
as fuel-based recursion.  It returns both the list of requested row windows
`(current_row, end_row)` and the emitted records; a failed fetch is logged
and breaks the loop (records already yielded stand).  Fuel
`total_rows + 1 - current_row` bounds the iteration count, since
`batch_size ≥ 1` advances `current_row` each turn. -/
def readLoop (parse_dates : Bool) (index_mapping : List (Nat × String))
    (fetch : Nat → Nat → Except String CellBlock) (total_rows batch_size : Nat) :
    Nat → Nat → List (Nat × Nat) × List (List (String × String))
  | 0, _ => ([], [])
  | fuel + 1, current_row =>
      if current_row ≤ total_rows then
        let end_row := min (current_row + batch_size - 1) total_rows
        match fetch current_row end_row with
        | Except.error _ => ([(current_row, end_row)], [])
        | Except.ok blk =>
            let rest := readLoop parse_dates index_mapping fetch total_rows
              batch_size fuel (end_row + 1)
            ((current_row, end_row) :: rest.1,
              batchRecords parse_dates index_mapping blk ++ rest.2)
      else ([], [])

/-- Model of `ExcelWorksheetStream.read_records`: `initial` is the used-range
fetch, `fetch` the per-window range fetch; `td` stands for
`unidecode.unidecode` inside header normalization.  Fewer than two rows in
the initial data emit nothing; otherwise headers are processed and the
pagination loop starts at row 2 with `total_rows` from the initial
`rowCount`. -/
def read_records (td : String → String) (config : Config) (initial : CellBlock)
    (fetch : Nat → Nat → Except String CellBlock) :
    List (List (String × String)) :=
  if initial.values.length < 2 then []
  else
    let raw_headers := (initial.values.headD []).map headerCellString
    let mapping := (process_headers td raw_headers config.names_conversion).2
    (readLoop config.parse_dates mapping fetch initial.rowCount
      config.batch_size (initial.rowCount + 1) 2).2

/-- Model of the column properties declared by
`ExcelWorksheetStream.get_json_schema` on a successful metadata fetch: the
keys of `{header: {"type": ["null", "string"]} for header in headers if header}`
computed from the first row (empty when there are no rows). -/
def get_json_schema_properties (td : String → String) (config : Config)
    (blk : CellBlock) : List String :=
  match blk.values with
  | [] => []
  | row0 :: _ =>
      (((process_headers td (row0.map headerCellString)
        config.names_conversion).1).filter (fun h => h ≠ "")).eraseDups

/-! ## Calendar validity lemmas -/

theorem daysInYear_ge (y : Nat) : 365 ≤ daysInYear y := by
  unfold daysInYear; split <;> omega

theorem daysInMonth_le_31 (y m : Nat) : daysInMonth y m ≤ 31 := by
  unfold daysInMonth
  split
  · split <;> omega
  · split <;> omega

theorem stripYears_lt : ∀ (fuel y n : Nat), n ≤ fuel →
    (stripYears y n fuel).2 < daysInYear (stripYears y n fuel).1 := by
  intro fuel
  induction fuel with
  | zero =>
      intro y n h
      have hn : n = 0 := by omega
      subst hn
      have := daysInYear_ge y
      simp [stripYears]
      omega
  | succ k ih =>
      intro y n h
      rw [stripYears]
      split
      · simpa using by assumption
      · have := daysInYear_ge y
        exact ih (y + 1) (n - daysInYear y) (by omega)

theorem stripMonths_lt : ∀ (fuel y m n : Nat), n < sumMonths y m (fuel + 1) →
    (stripMonths y m n fuel).2 < daysInMonth y (stripMonths y m n fuel).1 ∧
    m ≤ (stripMonths y m n fuel).1 ∧ (stripMonths y m n fuel).1 ≤ m + fuel := by
  intro fuel
  induction fuel with
  | zero =>
      intro y m n h
      simp [sumMonths] at h
      simp [stripMonths]
      omega
  | succ k ih =>
      intro y m n h
      rw [stripMonths]
      split
      · rename_i hlt
        refine ⟨?_, ?_, ?_⟩ <;> simp <;> omega
      · rename_i hge
        have hrec := ih y (m + 1) (n - daysInMonth y m)
          (by rw [sumMonths] at h; omega)
        exact ⟨hrec.1, by omega, by omega⟩

theorem sumMonths_year (y : Nat) : sumMonths y 1 12 = daysInYear y := by
  show sumMonths y 1 (11 + 1) = daysInYear y
  simp only [sumMonths, daysInMonth, daysInYear]
  norm_num
  split <;> omega

theorem fromOrdinal_valid (n : Nat) :
    1 ≤ (fromOrdinal n).2.1 ∧ (fromOrdinal n).2.1 ≤ 12 ∧
    1 ≤ (fromOrdinal n).2.2 ∧
    (fromOrdinal n).2.2 ≤ daysInMonth (fromOrdinal n).1 (fromOrdinal n).2.1 := by
  have h1 := stripYears_lt n 1 n (le_refl n)
  have h2 := stripMonths_lt 11 (stripYears 1 n n).1 1 (stripYears 1 n n).2
    (by rw [show (11 + 1 : Nat) = 12 from rfl, sumMonths_year]; exact h1)
  refine ⟨?_, ?_, ?_, ?_⟩ <;> (simp only [fromOrdinal]; omega)

theorem digitChar_mod (a : Nat) : digitChar (a % 10) = digitChar a := by
  unfold digitChar
  have h : a % 10 % 10 = a % 10 := by omega
  rw [h]

theorem digitChar_fin_inj : ∀ a b : Fin 10, digitChar a.val = digitChar b.val →
    a = b := by decide

theorem digitChar_extract (k j : Nat) (hj : j < 10)
    (h : digitChar k = digitChar j) : k % 10 = j := by
  have h1 : digitChar (k % 10) = digitChar (j % 10) := by
    rw [digitChar_mod, digitChar_mod]; exact h
  have h2 := digitChar_fin_inj ⟨k % 10, Nat.mod_lt _ (by omega)⟩
    ⟨j % 10, Nat.mod_lt _ (by omega)⟩ h1
  have h3 : k % 10 = j % 10 := congrArg Fin.val h2
  omega

theorem formatYMD_ne_feb29_1900 (y m d : Nat) (hm : m ≤ 12) (hd31 : d ≤ 31)
    (hdm : d ≤ daysInMonth y m) : formatYMD (y, m, d) ≠ "1900-02-29" := by
  intro h
  have hdata : pad4 y ++ '-' :: pad2 m ++ '-' :: pad2 d = "1900-02-29".data :=
    congrArg String.data h
  have hlit : "1900-02-29".data =
      ['1', '9', '0', '0', '-', '0', '2', '-', '2', '9'] := rfl
  rw [hlit] at hdata
  simp only [pad4, pad2, List.cons_append, List.nil_append,
    List.cons.injEq, and_true] at hdata
  obtain ⟨e1, e2, e3, e4, _, e5, e6, _, e7, e8⟩ := hdata
  have d1 : (y / 1000) % 10 = 1 :=
    digitChar_extract _ 1 (by omega) (by rw [e1]; rfl)
  have d2 : (y / 100) % 10 = 9 :=
    digitChar_extract _ 9 (by omega) (by rw [e2]; rfl)
  have d3 : (y / 10) % 10 = 0 :=
    digitChar_extract _ 0 (by omega) (by rw [e3]; rfl)
  have d4 : y % 10 = 0 :=
    digitChar_extract _ 0 (by omega) (by rw [e4]; rfl)
  have dm1 : (m / 10) % 10 = 0 :=
    digitChar_extract _ 0 (by omega) (by rw [e5]; rfl)
  have dm2 : m % 10 = 2 :=
    digitChar_extract _ 2 (by omega) (by rw [e6]; rfl)
  have dd1 : (d / 10) % 10 = 2 :=
    digitChar_extract _ 2 (by omega) (by rw [e7]; rfl)
  have dd2 : d % 10 = 9 :=
    digitChar_extract _ 9 (by omega) (by rw [e8]; rfl)
  have hy : y % 10000 = 1900 := by omega
  have hm2 : m = 2 := by omega
  have hd29 : d = 29 := by omega
  have h4 : y % 4 = 0 := by omega
  have h100 : y % 100 = 0 := by omega
  have h400 : y % 400 = 300 := by omega
  have hleap : isLeap y = false := by
    unfold isLeap
    rw [h4, h100, h400]
    decide
  rw [hm2] at hdm
  simp [daysInMonth, hleap] at hdm
  omega

set_option maxRecDepth 100000 in
/-- Claim C1 (amended): `excel_serial_to_date` adds the serial as a day count
to the epoch 1899-12-30, subtracting 1 first when the serial is ≥ 60;
serial 1 gives "1899-12-31", "1900-02-29" is never produced for any serial,
and serial 61 gives "1900-02-28" (the off-by-one adjustment makes it one day
earlier than Excel's 1900-03-01 convention). -/
theorem claim_C1 :
    (∀ s : Int, excel_serial_to_date s =
      formatYMD (fromOrdinal
        (epochOrdinal + (if 60 ≤ s then s - 1 else s)).toNat)) ∧
    excel_serial_to_date 1 = "1899-12-31" ∧
    (∀ s : Int, excel_serial_to_date s ≠ "1900-02-29") ∧
    excel_serial_to_date 61 = "1900-02-28" := by
  refine ⟨fun s => rfl, by decide, ?_, by decide⟩
  intro s
  show formatYMD (fromOrdinal _) ≠ _
  have hv := fromOrdinal_valid (epochOrdinal +
    (if 60 ≤ s then s - 1 else s)).toNat
  rcases hfo : fromOrdinal (epochOrdinal +
    (if 60 ≤ s then s - 1 else s)).toNat with ⟨y, m, d⟩
  rw [hfo] at hv
  exact formatYMD_ne_feb29_1900 y m d hv.2.1
    (le_trans hv.2.2.2 (daysInMonth_le_31 y m)) hv.2.2.2

set_option maxRecDepth 100000 in
/-- Claim C1 counterexample: as stated, the claim asserts serial 61 decodes
to "1900-03-01", but the code emits "1900-02-28" for serial 61. -/
theorem claim_C1_counterexample :
    excel_serial_to_date 61 = "1900-02-28" ∧
    excel_serial_to_date 61 ≠ "1900-03-01" := by
  constructor <;> decide

/-! ## Header deduplication lemmas -/

theorem dedupAux_length : ∀ (t : List String) (idx : Nat) (seen : List String),
    (dedupAux t idx seen).length = t.length := by
  intro t
  induction t with
  | nil => intro idx seen; rfl
  | cons h0 t' ih =>
      intro idx seen
      rw [dedupAux]
      split <;> simp [ih]

theorem dedupAux_getD : ∀ (t : List String) (idx : Nat) (seen : List String)
    (i : Nat), i < t.length →
    (dedupAux t idx seen).getD i "" =
      (if t.getD i "" ∈ seen ∨ t.getD i "" ∈ t.take i
       then t.getD i "" ++ "_" ++ excel_column_label (idx + i) ++ "1"
       else t.getD i "") := by
  intro t
  induction t with
  | nil => intro idx seen i hi; simp at hi
  | cons h0 t' ih =>
      intro idx seen i hi
      cases i with
      | zero =>
          by_cases hs : h0 ∈ seen <;> simp [dedupAux, hs]
      | succ j =>
          have hj : j < t'.length := by simpa using hi
          have hl : idx + 1 + j = idx + (j + 1) := by omega
          by_cases hs : h0 ∈ seen
          · rw [show dedupAux (h0 :: t') idx seen =
              (h0 ++ "_" ++ excel_column_label idx ++ "1") ::
                dedupAux t' (idx + 1) seen from by rw [dedupAux, if_pos hs]]
            rw [List.getD_cons_succ, List.getD_cons_succ, ih (idx + 1) seen j hj,
              hl, List.take_succ_cons]
            apply if_congr _ rfl rfl
            constructor
            · intro h; rcases h with h | h
              · exact Or.inl h
              · exact Or.inr (List.mem_cons_of_mem _ h)
            · intro h; rcases h with h | h
              · exact Or.inl h
              · rcases List.mem_cons.mp h with h | h
                · rw [h]; exact Or.inl hs
                · exact Or.inr h
          · rw [show dedupAux (h0 :: t') idx seen =
              h0 :: dedupAux t' (idx + 1) (h0 :: seen) from by
                rw [dedupAux, if_neg hs]]
            rw [List.getD_cons_succ, List.getD_cons_succ,
              ih (idx + 1) (h0 :: seen) j hj, hl, List.take_succ_cons]
            apply if_congr _ rfl rfl
            constructor
            · intro h; rcases h with h | h
              · rcases List.mem_cons.mp h with h | h
                · exact Or.inr (List.mem_cons.mpr (Or.inl h))
                · exact Or.inl h
              · exact Or.inr (List.mem_cons_of_mem _ h)
            · intro h; rcases h with h | h
              · exact Or.inl (List.mem_cons_of_mem _ h)
              · rcases List.mem_cons.mp h with h | h
                · exact Or.inl (List.mem_cons.mpr (Or.inl h))
                · exact Or.inr h

theorem deduplicate_headers_getD (headers : List String) (i : Nat)
    (hi : i < headers.length) :
    (deduplicate_headers headers).getD i "" =
      (if headers.getD i "" ∈ headers.take i
       then headers.getD i "" ++ "_" ++ excel_column_label i ++ "1"
       else headers.getD i "") := by
  have h := dedupAux_getD headers 0 [] i hi
  rw [deduplicate_headers]
  rw [h]
  simp

/-- Claim C2: header deduplication keeps the first occurrence of each name
unchanged and renames every later occurrence of the same name to
`name ++ "_" ++ column letter of its own position ++ "1"`; in particular
`["A", "B", "A"]` becomes `["A", "B", "A_C1"]`. -/
theorem claim_C2 :
    deduplicate_headers ["A", "B", "A"] = ["A", "B", "A_C1"] ∧
    ∀ (headers : List String) (i : Nat), i < headers.length →
      (deduplicate_headers headers).length = headers.length ∧
      ((∃ j, j < i ∧ headers.getD j "" = headers.getD i "") →
        (deduplicate_headers headers).getD i "" =
          headers.getD i "" ++ "_" ++ excel_column_label i ++ "1") ∧
      ((∀ j, j < i → headers.getD j "" ≠ headers.getD i "") →
        (deduplicate_headers headers).getD i "" = headers.getD i "") := by
  refine ⟨by decide, ?_⟩
  intro headers i hi
  have hmem : headers.getD i "" ∈ headers.take i ↔
      ∃ j, j < i ∧ headers.getD j "" = headers.getD i "" := by
    rw [List.mem_take_iff_getElem]
    constructor
    · rintro ⟨j, hj, he⟩
      refine ⟨j, by omega, ?_⟩
      rw [List.getD_eq_getElem headers "" (by omega)]
      exact he
    · rintro ⟨j, hj, he⟩
      have hjl : j < headers.length := by omega
      refine ⟨j, by omega, ?_⟩
      rw [← List.getD_eq_getElem headers "" hjl]
      exact he
  refine ⟨dedupAux_length headers 0 [], ?_, ?_⟩
  · intro h
    rw [deduplicate_headers_getD headers i hi, if_pos (hmem.mpr h)]
  · intro h
    rw [deduplicate_headers_getD headers i hi, if_neg ?_]
    intro hc
    rcases hmem.mp hc with ⟨j, hj, he⟩
    exact h j hj he

/-- Claim C2 witness: instantiation at `["A", "B", "A"]`, index 2 (a repeat
of index 0). -/
theorem claim_C2_witness :
    (deduplicate_headers ["A", "B", "A"]).getD 2 "" = "A_C1" := by
  have h := (claim_C2.2 ["A", "B", "A"] 2 (by decide)).2.1
    ⟨0, by omega, by decide⟩
  rw [h]
  decide

/-- Claim C3 (code-bug exhibit): the final header names are NOT always
pairwise distinct.  On raw headers `["A", "A", "A_B1"]` the duplicate "A" at
index 1 is renamed to "A_B1", which collides with the raw header "A_B1" at
index 2 (generated names are never added to `seen`), so two indices of the
mapping carry the same final name. -/
theorem claim_C3 :
    (process_headers (fun s => s) ["A", "A", "A_B1"] false).2 =
      [(0, "A"), (1, "A_B1"), (2, "A_B1")] ∧
    ¬ ((process_headers (fun s => s) ["A", "A", "A_B1"] false).2.map
        Prod.snd).Nodup := by
  constructor <;> decide

/-! ## Header mapping lemmas (claim C6) -/

theorem normalize_column_name_empty (td : String → String) (conv : Bool) :
    normalize_column_name td "" conv = "" := by
  unfold normalize_column_name
  rw [if_pos (Or.inr rfl)]

theorem process_headers_single_empty (td : String → String) (conv : Bool) :
    process_headers td [""] conv = ([""], []) := by
  simp only [process_headers]
  rw [show List.map (fun h => normalize_column_name td h conv) [""] = [""]
    from by rw [List.map_cons, normalize_column_name_empty]; rfl]
  decide

theorem process_headers_mapping_mem (td : String → String) (raw : List String)
    (conv : Bool) (i : Nat) (h : String) :
    (i, h) ∈ (process_headers td raw conv).2 ↔
      (process_headers td raw conv).1[i]? = some h ∧ h ≠ "" := by
  unfold process_headers
  simp only []
  rw [List.mem_filter, List.mem_enum_iff_getElem?]
  simp

/-- Claim C6 (amended): an index appears in the index-to-name mapping exactly
when its final header (after normalization and deduplication) is a non-empty
string; a header row consisting of one empty-string cell yields an empty
mapping and no schema columns under either normalization setting.  (As
stated, the claim fails: whitespace-only headers are non-empty strings and
are kept, and a repeated empty cell is renamed to a non-empty placeholder
and kept.) -/
theorem claim_C6 :
    (∀ (td : String → String) (conv : Bool),
      (process_headers td [""] conv).2 = []) ∧
    (∀ (td : String → String) (cfg : Config),
      get_json_schema_properties td cfg ⟨[[CellValue.str ""]], 1, 1⟩ = []) ∧
    (∀ (td : String → String) (raw : List String) (conv : Bool)
      (i : Nat) (h : String),
      (i, h) ∈ (process_headers td raw conv).2 ↔
        (process_headers td raw conv).1[i]? = some h ∧ h ≠ "") := by
  refine ⟨?_, ?_, process_headers_mapping_mem⟩
  · intro td conv
    rw [process_headers_single_empty]
  · intro td cfg
    simp only [get_json_schema_properties]
    rw [show List.map headerCellString [CellValue.str ""] = [""] from rfl,
      process_headers_single_empty]
    decide

/-- Claim C6 counterexample: a header row of blank (whitespace-only) cells
does NOT give an empty mapping (the cell " " is a truthy Python string and
is kept), and even a row of two empty cells keeps a generated "_B1"
placeholder for the second one; the schema then declares those columns. -/
theorem claim_C6_counterexample :
    (process_headers (fun s => s) [" "] false).2 = [(0, " ")] ∧
    get_json_schema_properties (fun s => s) {} ⟨[[CellValue.str " "]], 1, 1⟩ =
      [" "] ∧
    (process_headers (fun s => s) ["", ""] false).2 = [(1, "_B1")] := by
  refine ⟨by decide, by decide, by decide⟩

/-! ## Value coercion (claim C5) -/

theorem isNull_iff (v : CellValue) : v.isNull = true ↔ v = CellValue.null := by
  cases v <;> simp [CellValue.isNull]

theorem is_excel_date_column_iff (c : String) :
    is_excel_date_column c = true ↔
      ∃ kw ∈ date_keywords, containsSub (pyLower c) kw = true := by
  unfold is_excel_date_column
  rw [List.any_eq_true]

/-- Claim C5: a null or blank-stringed value coerces to absent; a
date-flagged column (keyword set {date, time, created, updated, modified,
expires, due, deadline}, case-insensitive substring) with parse-dates on and
an integral numeric value in [1, 100000] coerces to the decoded Excel date
serial; everything else (including non-numeric values in date-flagged
columns, which raise no exception) coerces to the value's string form. -/
theorem claim_C5 (value : CellValue) (column_name : String)
    (parse_dates : Bool) :
    ((value = CellValue.null ∨ pyStrip (pyStr value) = "") →
      parse_excel_value value column_name parse_dates = none) ∧
    (¬ (value = CellValue.null ∨ pyStrip (pyStr value) = "") →
      parse_dates = true →
      (∃ kw ∈ date_keywords, containsSub (pyLower column_name) kw = true) →
      ∀ q : ℚ, pyFloat value = some q → 1 ≤ q → q ≤ 100000 → q.den = 1 →
        parse_excel_value value column_name parse_dates =
          some (excel_serial_to_date q.num)) ∧
    (¬ (value = CellValue.null ∨ pyStrip (pyStr value) = "") →
      (parse_dates = false ∨
       (∀ kw ∈ date_keywords, containsSub (pyLower column_name) kw = false) ∨
       pyFloat value = none ∨
       (∀ q : ℚ, pyFloat value = some q →
         ¬ (1 ≤ q ∧ q ≤ 100000 ∧ q.den = 1))) →
      parse_excel_value value column_name parse_dates = some (pyStr value)) := by
  have hnull : (value.isNull = true ∨ pyStrip (pyStr value) = "") ↔
      (value = CellValue.null ∨ pyStrip (pyStr value) = "") := by
    rw [isNull_iff]
  refine ⟨?_, ?_, ?_⟩
  · intro h
    unfold parse_excel_value
    rw [if_pos (hnull.mpr h)]
  · intro h hpd hkw q hq h1 h100 hden
    unfold parse_excel_value
    rw [if_neg (fun hc => h (hnull.mp hc)), hpd, hq]
    have hdc : is_excel_date_column column_name = true :=
      (is_excel_date_column_iff column_name).mpr hkw
    rw [hdc]
    simp only [Bool.and_self, if_true]
    rw [if_pos ⟨h1, h100, hden⟩]
  · intro h hcases
    unfold parse_excel_value
    rw [if_neg (fun hc => h (hnull.mp hc))]
    rcases hcases with hpd | hkw | hpf | hrange
    · rw [hpd]
      simp
    · have hdc : is_excel_date_column column_name = false := by
        cases hdc : is_excel_date_column column_name
        · rfl
        · rcases (is_excel_date_column_iff column_name).mp hdc with ⟨kw, hm, hc⟩
          rw [hkw kw hm] at hc
          exact absurd hc (by simp)
      rw [hdc]
      simp
    · by_cases hc : (parse_dates && is_excel_date_column column_name) = true
      · rw [hc, hpf]
        simp
      · simp only [Bool.not_eq_true] at hc
        rw [hc]
        simp
    · by_cases hc : (parse_dates && is_excel_date_column column_name) = true
      · cases hq : pyFloat value with
        | none => simp [hc, hq]
        | some q => simp [hc, hq, hrange q hq]
      · simp only [Bool.not_eq_true] at hc
        rw [hc]
        simp

set_option maxRecDepth 400000 in
/-- Claim C5 witness: the branches at concrete inputs — null is absent, the
integer 45000 and the scientific-notation string "1e3" in date-flagged
columns decode to date strings (the value 1000 parsed from "1e3" is an
integer in range), and the non-numeric "Bob" in a date-flagged column falls
through to string emission without error. -/
theorem claim_C5_witness :
    parse_excel_value CellValue.null "x" true = none ∧
    parse_excel_value (CellValue.int 45000) "Created Date" true =
      some "2023-03-14" ∧
    parse_excel_value (CellValue.str "1e3") "Due Date" true =
      some "1902-09-25" ∧
    parse_excel_value (CellValue.str "Bob") "Created Date" true =
      some "Bob" := by
  refine ⟨(claim_C5 CellValue.null "x" true).1 (Or.inl rfl), ?_, ?_, ?_⟩
  · have h := (claim_C5 (CellValue.int 45000) "Created Date" true).2.1
      (by decide) rfl ⟨"created", by decide, by decide⟩
      (((45000 : Int) : ℚ)) (by decide) (by decide) (by decide) (by decide)
    rw [h, show (((45000 : Int) : ℚ)).num = 45000 from by decide]
    decide
  · have hpf : pyFloat (CellValue.str "1e3") = some 1000 := by
      have h1 : pyFloat (CellValue.str "1e3") =
          some (((1 : ℕ) : ℚ) * (10 : ℚ) ^ (3 : ℕ)) := rfl
      rw [h1]
      norm_num
    have h := (claim_C5 (CellValue.str "1e3") "Due Date" true).2.1
      (by decide) rfl ⟨"due", by decide, by decide⟩
      ((1000 : ℚ)) hpf (by decide) (by decide) (by decide)
    rw [h, show ((1000 : ℚ)).num = 1000 from by decide]
    decide
  · have h := (claim_C5 (CellValue.str "Bob") "Created Date" true).2.2
      (by decide) (Or.inr (Or.inr (Or.inl (by decide))))
    rw [h]
    decide

/-! ## Range-fetch error handling (claim C8) -/

/-- Claim C8: the range fetch normalizes a 404 response (whatever its body)
to the empty cell block without raising, raises carrying the upstream
message exactly when the status is neither 200 nor 404, and returns the
response body on 200. -/
theorem claim_C8 (resp : HttpResponse) :
    (resp.status = 404 → get_worksheet_data resp = Except.ok ⟨[], 0, 0⟩) ∧
    (resp.status ≠ 200 → resp.status ≠ 404 →
      get_worksheet_data resp =
        Except.error ("Failed to get worksheet data: " ++ resp.errorMessage)) ∧
    (resp.status = 200 → get_worksheet_data resp = Except.ok resp.body) ∧
    ((∃ e, get_worksheet_data resp = Except.error e) ↔
      resp.status ≠ 200 ∧ resp.status ≠ 404) := by
  unfold get_worksheet_data
  refine ⟨?_, ?_, ?_, ?_⟩
  · intro h
    rw [if_pos h]
  · intro h200 h404
    rw [if_neg h404, if_pos h200]
  · intro h200
    have h404 : resp.status ≠ 404 := by omega
    rw [if_neg h404, if_neg (by simp [h200])]
  · constructor
    · rintro ⟨e, he⟩
      by_cases h404 : resp.status = 404
      · rw [if_pos h404] at he
        exact absurd he (by simp)
      · rw [if_neg h404] at he
        by_cases h200 : resp.status = 200
        · rw [if_neg (by simp [h200])] at he
          exact absurd he (by simp)
        · exact ⟨h200, h404⟩
    · rintro ⟨h200, h404⟩
      exact ⟨_, by rw [if_neg h404, if_pos h200]⟩

/-- Claim C8 witness: instantiation at a 404 response, a 500 response and a
200 response over a concrete body. -/
theorem claim_C8_witness :
    get_worksheet_data ⟨404, ⟨[[CellValue.int 7]], 9, 9⟩, "gone"⟩ =
      Except.ok ⟨[], 0, 0⟩ ∧
    get_worksheet_data ⟨500, ⟨[], 0, 0⟩, "boom"⟩ =
      Except.error "Failed to get worksheet data: boom" ∧
    get_worksheet_data ⟨200, ⟨[[CellValue.int 7]], 9, 9⟩, ""⟩ =
      Except.ok ⟨[[CellValue.int 7]], 9, 9⟩ := by
  exact ⟨(claim_C8 _).1 rfl,
    (claim_C8 ⟨500, ⟨[], 0, 0⟩, "boom"⟩).2.1 (by decide) (by decide),
    (claim_C8 _).2.2.1 rfl⟩

/-! ## Pagination lemmas (claim C4) -/

/-- Invariant of the pagination loop when every fetch succeeds: starting at
`c` with enough fuel, the requested windows tile `[c, total]` exactly, each
window is non-degenerate of height at most `B`, consecutive windows are
adjacent with increasing starts, and the first window starts at `c`. -/
theorem readLoop_windows (pd : Bool) (mapping : List (Nat × String))
    (fetch : Nat → Nat → Except String CellBlock) (total B : Nat) (hB : 1 ≤ B)
    (hok : ∀ a b, ∃ blk, fetch a b = Except.ok blk) :
    ∀ (fuel c : Nat), total + 1 ≤ c + fuel →
    ((readLoop pd mapping fetch total B fuel c).1.flatMap
        (fun p => List.range' p.1 (p.2 + 1 - p.1)) =
      List.range' c (total + 1 - c)) ∧
    (∀ p ∈ (readLoop pd mapping fetch total B fuel c).1,
      p.1 ≤ p.2 ∧ p.2 + 1 - p.1 ≤ B ∧ c ≤ p.1 ∧ p.2 ≤ total) ∧
    List.Chain' (fun p q : Nat × Nat => q.1 = p.2 + 1 ∧ p.1 < q.1)
      (readLoop pd mapping fetch total B fuel c).1 ∧
    ((readLoop pd mapping fetch total B fuel c).1.head?.map Prod.fst =
      if c ≤ total then some c else none) := by
  intro fuel
  induction fuel with
  | zero =>
      intro c hc
      have hgt : ¬ (c ≤ total) := by omega
      rw [readLoop]
      refine ⟨?_, by simp, by simp, by simp [hgt]⟩
      rw [show total + 1 - c = 0 from by omega]
      simp
  | succ fuel ih =>
      intro c hc
      rw [readLoop]
      by_cases hle : c ≤ total
      · rw [if_pos hle]
        obtain ⟨blk, hblk⟩ := hok c (min (c + B - 1) total)
        simp only [hblk]
        set e := min (c + B - 1) total with he
        have hce : c ≤ e := by omega
        have het : e ≤ total := by omega
        have ihe := ih (e + 1) (by omega)
        refine ⟨?_, ?_, ?_, ?_⟩
        · rw [List.flatMap_cons, ihe.1]
          have h1 : e + 1 - c + (total + 1 - (e + 1)) = total + 1 - c := by
            omega
          have h2 : c + (e + 1 - c) = e + 1 := by omega
          calc List.range' c (e + 1 - c) ++ List.range' (e + 1) (total + 1 - (e + 1))
              = List.range' c (e + 1 - c) ++
                List.range' (c + (e + 1 - c)) (total + 1 - (e + 1)) := by rw [h2]
            _ = List.range' c (total + 1 - (e + 1) + (e + 1 - c)) :=
                List.range'_append_1 c (e + 1 - c) (total + 1 - (e + 1))
            _ = List.range' c (total + 1 - c) := by rw [show
                total + 1 - (e + 1) + (e + 1 - c) = total + 1 - c from by omega]
        · intro p hp
          rcases List.mem_cons.mp hp with hp | hp
          · rw [hp]
            exact ⟨hce, by omega, le_refl c, het⟩
          · have := ihe.2.1 p hp
            exact ⟨this.1, this.2.1, by omega, this.2.2.2⟩
        · rw [List.chain'_cons']
          refine ⟨?_, ihe.2.2.1⟩
          intro y hy
          have hh := ihe.2.2.2
          cases hhd : (readLoop pd mapping fetch total B fuel (e + 1)).1.head? with
          | none => rw [hhd] at hy; exact absurd hy (by simp)
          | some z =>
              rw [hhd] at hy hh
              have hz : z = y := by simpa using hy
              have : some z.1 = if e + 1 ≤ total then some (e + 1) else none := by
                simpa using hh
              by_cases het2 : e + 1 ≤ total
              · rw [if_pos het2] at this
                have hz1 : z.1 = e + 1 := by simpa using this
                rw [← hz]
                exact ⟨hz1, by omega⟩
              · rw [if_neg het2] at this
                exact absurd this (by simp)
        · simp [hle]
      · rw [if_neg hle]
        refine ⟨?_, by simp, by simp, by simp [hle]⟩
        rw [show total + 1 - c = 0 from by omega]
        simp

/-- Claim C4: with `rowCount = N ≥ 2` and `batch_size = B ≥ 1` and all
fetches succeeding, the pagination loop of `read_records` requests windows
that start at row 2, have height at most `B`, are consecutive-adjacent with
strictly increasing starts, and tile rows `2..N` exactly (their concatenated
row ranges equal `[2, ..., N]`, so there are no gaps and no overlaps). -/
theorem claim_C4 (N B : Nat) (hN : 2 ≤ N) (hB : 1 ≤ B) (pd : Bool)
    (mapping : List (Nat × String))
    (fetch : Nat → Nat → Except String CellBlock)
    (hok : ∀ a b, ∃ blk, fetch a b = Except.ok blk) :
    ((readLoop pd mapping fetch N B (N + 1) 2).1.head?.map Prod.fst =
      some 2) ∧
    (∀ p ∈ (readLoop pd mapping fetch N B (N + 1) 2).1,
      p.1 ≤ p.2 ∧ p.2 + 1 - p.1 ≤ B) ∧
    List.Chain' (fun p q : Nat × Nat => q.1 = p.2 + 1)
      (readLoop pd mapping fetch N B (N + 1) 2).1 ∧
    List.Chain' (fun p q : Nat × Nat => p.1 < q.1)
      (readLoop pd mapping fetch N B (N + 1) 2).1 ∧
    (readLoop pd mapping fetch N B (N + 1) 2).1.flatMap
        (fun p => List.range' p.1 (p.2 + 1 - p.1)) =
      List.range' 2 (N - 1) := by
  have h := readLoop_windows pd mapping fetch N B hB hok (N + 1) 2 (by omega)
  refine ⟨?_, ?_, ?_, ?_, ?_⟩
  · rw [h.2.2.2, if_pos (by omega)]
  · intro p hp
    exact ⟨(h.2.1 p hp).1, (h.2.1 p hp).2.1⟩
  · exact h.2.2.1.imp (fun a b hr => hr.1)
  · exact h.2.2.1.imp (fun a b hr => hr.2)
  · rw [h.1, show N + 1 - 2 = N - 1 from by omega]

/-- Claim C4 witness: `N = 5`, `B = 2` with a constant successful fetch; the
windows are `(2,3), (4,5)`, tiling rows 2..5. -/
theorem claim_C4_witness :
    ((readLoop true [] (fun a b => Except.ok ⟨[], 0, 0⟩) 5 2 6 2).1.head?.map
      Prod.fst = some 2) ∧
    (readLoop true [] (fun a b => Except.ok ⟨[], 0, 0⟩) 5 2 6 2).1.flatMap
        (fun p => List.range' p.1 (p.2 + 1 - p.1)) =
      List.range' 2 4 := by
  have h := claim_C4 5 2 (by omega) (by omega) true []
    (fun a b => Except.ok ⟨[], 0, 0⟩) (fun a b => ⟨⟨[], 0, 0⟩, rfl⟩)
  exact ⟨h.1, h.2.2.2.2⟩

/-! ## Record assembly lemmas (claims C7 and C10) -/

theorem recordInsert_mem (r : List (String × String)) (h v : String)
    (k w : String) (hm : (k, w) ∈ recordInsert r h v) :
    (k, w) ∈ r ∨ k = h := by
  unfold recordInsert at hm
  split at hm
  · rcases List.mem_map.mp hm with ⟨p, hp, he⟩
    by_cases hph : p.1 = h
    · rw [if_pos hph] at he
      right
      exact (Prod.mk.injEq _ _ _ _ ▸ he.symm).1.symm ▸ rfl
    · rw [if_neg hph] at he
      left
      exact he ▸ hp
  · rcases List.mem_append.mp hm with hm | hm
    · exact Or.inl hm
    · right
      have := List.mem_singleton.mp hm
      exact (Prod.mk.injEq _ _ _ _ ▸ this).1

theorem buildRecord_fold_mem (pd : Bool) (row : List CellValue) :
    ∀ (mapping : List (Nat × String)) (init : List (String × String))
      (k w : String),
      (k, w) ∈ mapping.foldl (fun r p =>
        if p.1 < row.length then
          match parse_excel_value (row.getD p.1 CellValue.null) p.2 pd with
          | some v => recordInsert r p.2 v
          | none => r
        else r) init →
      (k, w) ∈ init ∨ k ∈ mapping.map Prod.snd := by
  intro mapping
  induction mapping with
  | nil => intro init k w hm; exact Or.inl hm
  | cons p t ih =>
      intro init k w hm
      rw [List.foldl_cons] at hm
      rcases ih _ k w hm with hm | hm
      · by_cases hp : p.1 < row.length
        · rw [if_pos hp] at hm
          cases hpe : parse_excel_value (row.getD p.1 CellValue.null) p.2 pd with
          | some v =>
              rw [hpe] at hm
              rcases recordInsert_mem init p.2 v k w hm with hm | hm
              · exact Or.inl hm
              · refine Or.inr ?_
                rw [List.map_cons]
                exact List.mem_cons.mpr (Or.inl hm)
          | none =>
              rw [hpe] at hm
              exact Or.inl hm
        · rw [if_neg hp] at hm
          exact Or.inl hm
      · refine Or.inr ?_
        rw [List.map_cons]
        exact List.mem_cons_of_mem _ hm

theorem buildRecord_mem (pd : Bool) (mapping : List (Nat × String))
    (row : List CellValue) (k w : String)
    (hm : (k, w) ∈ buildRecord pd mapping row) : k ∈ mapping.map Prod.snd := by
  rcases buildRecord_fold_mem pd row mapping [] k w hm with h | h
  · exact absurd h (by simp)
  · exact h

theorem buildRecord_filter (pd : Bool) (row : List CellValue) :
    ∀ (mapping : List (Nat × String)) (init : List (String × String)),
      mapping.foldl (fun r p =>
        if p.1 < row.length then
          match parse_excel_value (row.getD p.1 CellValue.null) p.2 pd with
          | some v => recordInsert r p.2 v
          | none => r
        else r) init =
      (mapping.filter (fun p => p.1 < row.length)).foldl (fun r p =>
        if p.1 < row.length then
          match parse_excel_value (row.getD p.1 CellValue.null) p.2 pd with
          | some v => recordInsert r p.2 v
          | none => r
        else r) init := by
  intro mapping
  induction mapping with
  | nil => intro init; rfl
  | cons p t ih =>
      intro init
      rw [List.foldl_cons, List.filter_cons]
      by_cases hp : p.1 < row.length
      · rw [if_pos hp]
        rw [if_pos (show decide (p.1 < row.length) = true from by
          simpa using hp)]
        rw [List.foldl_cons, if_pos hp]
        exact ih _
      · rw [if_neg hp]
        rw [if_neg (show ¬ decide (p.1 < row.length) = true from by
          simpa using hp)]
        exact ih _

theorem readLoop_no_empty_record (pd : Bool) (mapping : List (Nat × String))
    (fetch : Nat → Nat → Except String CellBlock) (total B : Nat) :
    ∀ (fuel c : Nat), [] ∉ (readLoop pd mapping fetch total B fuel c).2 := by
  intro fuel
  induction fuel with
  | zero => intro c; simp [readLoop]
  | succ fuel ih =>
      intro c
      rw [readLoop]
      split
      · cases hf : fetch c (min (c + B - 1) total) with
        | error e => simp [hf]
        | ok blk =>
            simp only [hf]
            intro hm
            rcases List.mem_append.mp hm with hm | hm
            · have := (List.mem_filter.mp hm).2
              simp at this
            · exact ih _ hm
      · simp

theorem readLoop_record_keys (pd : Bool) (mapping : List (Nat × String))
    (fetch : Nat → Nat → Except String CellBlock) (total B : Nat) :
    ∀ (fuel c : Nat) (r : List (String × String)),
      r ∈ (readLoop pd mapping fetch total B fuel c).2 →
      ∀ k w, (k, w) ∈ r → k ∈ mapping.map Prod.snd := by
  intro fuel
  induction fuel with
  | zero => intro c r hr; simp [readLoop] at hr
  | succ fuel ih =>
      intro c r hr k w hk
      rw [readLoop] at hr
      split at hr
      · cases hf : fetch c (min (c + B - 1) total) with
        | error e =>
            simp only [hf] at hr
            simp at hr
        | ok blk =>
            simp only [hf] at hr
            rcases List.mem_append.mp hr with hr | hr
            · rcases List.mem_map.mp (List.mem_filter.mp hr).1 with ⟨row, _, he⟩
              rw [← he] at hk
              exact buildRecord_mem pd mapping row k w hk
            · exact ih _ r hr k w hk
      · simp at hr

/-- Claim C10: record assembly is total on short rows — a mapped index with
no corresponding cell contributes nothing (assembly over a mapping equals
assembly over the mapping restricted to in-range indices), and every key of
every record emitted by `read_records` is one of the final header names of
the index-to-name mapping. -/
theorem claim_C10 :
    (∀ (pd : Bool) (mapping : List (Nat × String)) (row : List CellValue),
      buildRecord pd mapping row =
        buildRecord pd (mapping.filter (fun p => p.1 < row.length)) row) ∧
    (∀ (pd : Bool) (mapping : List (Nat × String)) (row : List CellValue)
      (k w : String), (k, w) ∈ buildRecord pd mapping row →
      k ∈ mapping.map Prod.snd) ∧
    (∀ (td : String → String) (cfg : Config) (initial : CellBlock)
      (fetch : Nat → Nat → Except String CellBlock)
      (r : List (String × String)), r ∈ read_records td cfg initial fetch →
      ∀ k w, (k, w) ∈ r →
        k ∈ ((process_headers td ((initial.values.headD []).map
          headerCellString) cfg.names_conversion).2).map Prod.snd) := by
  refine ⟨?_, buildRecord_mem, ?_⟩
  · intro pd mapping row
    exact buildRecord_filter pd row mapping []
  · intro td cfg initial fetch r hr k w hk
    unfold read_records at hr
    split at hr
    · simp at hr
    · exact readLoop_record_keys cfg.parse_dates _ fetch initial.rowCount
        cfg.batch_size _ 2 r hr k w hk

/-- Claim C10 witness: a mapping entry at index 5 against a 1-cell row is
silently dropped, and the produced record's keys are final header names. -/
theorem claim_C10_witness :
    buildRecord true [(0, "a"), (5, "b")] [CellValue.str "x"] =
      buildRecord true [(0, "a")] [CellValue.str "x"] ∧
    "a" ∈ ([(0, "a"), (5, "b")] : List (Nat × String)).map Prod.snd := by
  constructor
  · have h := claim_C10.1 true [(0, "a"), (5, "b")] [CellValue.str "x"]
    rw [h]
    decide
  · exact claim_C10.2.1 true [(0, "a"), (5, "b")] [CellValue.str "x"] "a" "x"
      (by decide)

set_option maxRecDepth 400000 in
/-- Claim C7 (amended): on the worksheet with header row
`["Name", "Created Date"]` and data rows `[["Bob", 45000], ["", ""]]` with
parse-dates enabled and name conversion disabled, exactly one record is
emitted, `Name ↦ "Bob"` and `Created Date ↦ "2023-03-14"` (the code's date
decoding maps serial 45000 to 2023-03-14, not 2023-02-10); the all-blank
row is skipped, and in general an empty record is never emitted. -/
theorem claim_C7 :
    read_records (fun s => s) {}
      ⟨[[CellValue.str "Name", CellValue.str "Created Date"],
        [CellValue.str "Bob", CellValue.int 45000],
        [CellValue.str "", CellValue.str ""]], 3, 2⟩
      (fun a b =>
        if a = 2 ∧ b = 3 then
          Except.ok ⟨[[CellValue.str "Bob", CellValue.int 45000],
            [CellValue.str "", CellValue.str ""]], 2, 2⟩
        else Except.error "unexpected range") =
      [[("Name", "Bob"), ("Created Date", "2023-03-14")]] ∧
    ∀ (td : String → String) (cfg : Config) (initial : CellBlock)
      (fetch : Nat → Nat → Except String CellBlock),
      [] ∉ read_records td cfg initial fetch := by
  constructor
  · decide
  · intro td cfg initial fetch hm
    unfold read_records at hm
    split at hm
    · simp at hm
    · exact readLoop_no_empty_record cfg.parse_dates _ fetch initial.rowCount
        cfg.batch_size _ 2 hm

set_option maxRecDepth 400000 in
/-- Claim C7 counterexample: the claimed record value "2023-02-10" for the
Created Date cell 45000 is not what the code produces (it produces
"2023-03-14"). -/
theorem claim_C7_counterexample :
    read_records (fun s => s) {}
      ⟨[[CellValue.str "Name", CellValue.str "Created Date"],
        [CellValue.str "Bob", CellValue.int 45000],
        [CellValue.str "", CellValue.str ""]], 3, 2⟩
      (fun a b =>
        if a = 2 ∧ b = 3 then
          Except.ok ⟨[[CellValue.str "Bob", CellValue.int 45000],
            [CellValue.str "", CellValue.str ""]], 2, 2⟩
        else Except.error "unexpected range") ≠
      [[("Name", "Bob"), ("Created Date", "2023-02-10")]] := by
  decide

/-! ## Normalization lemmas (claim C9) -/

theorem toNat_ofNat_lt (n : Nat) (h : n < 55296) : (Char.ofNat n).toNat = n := by
  unfold Char.ofNat
  rw [dif_pos (Or.inl h)]
  rfl

theorem char_eq_of_toNat {c d : Char} (h : c.toNat = d.toNat) : c = d := by
  have h1 := Char.ofNat_toNat c
  rw [h, Char.ofNat_toNat] at h1
  exact h1.symm

theorem lowerChar_toNat (c : Char) : (lowerChar c).toNat =
    if 65 ≤ c.toNat ∧ c.toNat ≤ 90 then c.toNat + 32 else c.toNat := by
  by_cases h : 65 ≤ c.toNat ∧ c.toNat ≤ 90
  · rw [if_pos h]
    unfold lowerChar
    rw [if_pos h]
    exact toNat_ofNat_lt _ (by omega)
  · rw [if_neg h]
    unfold lowerChar
    rw [if_neg h]

theorem lowerChar_idem (c : Char) : lowerChar (lowerChar c) = lowerChar c := by
  apply char_eq_of_toNat
  rw [lowerChar_toNat, lowerChar_toNat]
  split_ifs <;> omega

theorem lowerChar_eq_underscore {c : Char} (h : lowerChar c = '_') :
    c = '_' := by
  apply char_eq_of_toNat
  have ht : (lowerChar c).toNat = 95 := by rw [h]; decide
  rw [lowerChar_toNat] at ht
  have hu : ('_' : Char).toNat = 95 := by decide
  rw [hu]
  by_cases hc : 65 ≤ c.toNat ∧ c.toNat ≤ 90
  · rw [if_pos hc] at ht; omega
  · rw [if_neg hc] at ht; omega

theorem isAsciiAlnum_lowerChar {c : Char} (h : isAsciiAlnum c = true) :
    isAsciiAlnum (lowerChar c) = true := by
  simp only [isAsciiAlnum, decide_eq_true_eq] at h ⊢
  rw [lowerChar_toNat]
  split_ifs <;> omega

theorem isAsciiDigit_lowerChar (c : Char) :
    isAsciiDigit (lowerChar c) = isAsciiDigit c := by
  simp only [isAsciiDigit]
  rw [decide_eq_decide, lowerChar_toNat]
  split_ifs <;> constructor <;> omega

theorem alnum_ne_underscore {c : Char} (h : isAsciiAlnum c = true) :
    c ≠ '_' := by
  intro he
  rw [he] at h
  exact absurd h (by decide)

theorem digit_ne_underscore {c : Char} (h : isAsciiDigit c = true) :
    c ≠ '_' := by
  intro he
  rw [he] at h
  exact absurd h (by decide)

theorem subNA_shape : ∀ cs : List Char,
    (∀ c ∈ subNA cs, isAsciiAlnum c = true ∨ c = '_') ∧
    List.Chain' (fun a b => ¬(a = '_' ∧ b = '_')) (subNA cs) := by
  intro cs
  induction cs with
  | nil => exact ⟨by simp [subNA], by simp [subNA]⟩
  | cons c cs ih =>
      by_cases ha : isAsciiAlnum c = true
      · rw [show subNA (c :: cs) = c :: subNA cs from by rw [subNA, if_pos ha]]
        refine ⟨?_, ?_⟩
        · intro d hd
          rcases List.mem_cons.mp hd with hd | hd
          · exact Or.inl (hd ▸ ha)
          · exact ih.1 d hd
        · rw [List.chain'_cons']
          exact ⟨fun y _ hcon => alnum_ne_underscore ha hcon.1, ih.2⟩
      · rw [subNA, if_neg ha]
        by_cases hh : (subNA cs).head? = some '_'
        · rw [if_pos hh]
          exact ih
        · rw [if_neg hh]
          refine ⟨?_, ?_⟩
          · intro d hd
            rcases List.mem_cons.mp hd with hd | hd
            · exact Or.inr hd
            · exact ih.1 d hd
          · rw [List.chain'_cons']
            refine ⟨?_, ih.2⟩
            intro y hy hcon
            rw [Option.mem_def] at hy
            rw [hcon.2] at hy
            exact hh hy

theorem subNA_fixed : ∀ cs : List Char,
    (∀ c ∈ cs, isAsciiAlnum c = true ∨ c = '_') →
    List.Chain' (fun a b => ¬(a = '_' ∧ b = '_')) cs →
    subNA cs = cs := by
  intro cs
  induction cs with
  | nil => intro _ _; rfl
  | cons c cs ih =>
      intro hall hch
      have hch' := List.chain'_cons'.mp hch
      have hrec := ih (fun d hd => hall d (List.mem_cons_of_mem _ hd)) hch'.2
      by_cases ha : isAsciiAlnum c = true
      · rw [subNA, if_pos ha, hrec]
      · have hc : c = '_' := by
          rcases hall c (List.mem_cons_self c cs) with h | h
          · exact absurd h ha
          · exact h
        have hh : cs.head? ≠ some '_' := by
          intro hhead
          exact hch'.1 '_' (Option.mem_def.mpr hhead) ⟨hc, rfl⟩
        rw [subNA, if_neg ha, hrec, if_neg hh, hc]

theorem head?_dropWhile_not (p : Char → Bool) : ∀ (l : List Char) (y : Char),
    (l.dropWhile p).head? = some y → p y = false := by
  intro l
  induction l with
  | nil => intro y h; simp [List.dropWhile] at h
  | cons c cs ih =>
      intro y h
      rw [List.dropWhile_cons] at h
      split at h
      · exact ih y h
      · rename_i hp
        have : c = y := by simpa using h
        rw [← this]
        simpa using hp

theorem getLast?_of_suffix {l₁ l₂ : List Char} (h : l₁ <:+ l₂) (hne : l₁ ≠ []) :
    l₁.getLast? = l₂.getLast? := by
  obtain ⟨pre, rfl⟩ := h
  rw [List.getLast?_append]
  cases hl : l₁.getLast? with
  | none => exact absurd (List.getLast?_eq_none_iff.mp hl) hne
  | some y => rfl

theorem stripU_mem {cs : List Char} {c : Char} (h : c ∈ stripU cs) : c ∈ cs := by
  unfold stripU at h
  rw [List.mem_reverse] at h
  have h2 := (List.dropWhile_suffix _).mem h
  rw [List.mem_reverse] at h2
  exact (List.dropWhile_suffix _).mem h2

theorem chainU_reverse {cs : List Char}
    (h : List.Chain' (fun a b => ¬(a = '_' ∧ b = '_')) cs) :
    List.Chain' (fun a b => ¬(a = '_' ∧ b = '_')) cs.reverse := by
  rw [List.chain'_reverse]
  exact h.imp (fun a b hr hcon => hr ⟨hcon.2, hcon.1⟩)

theorem stripU_chain {cs : List Char}
    (h : List.Chain' (fun a b => ¬(a = '_' ∧ b = '_')) cs) :
    List.Chain' (fun a b => ¬(a = '_' ∧ b = '_')) (stripU cs) := by
  unfold stripU
  apply chainU_reverse
  apply List.Chain'.suffix _ (List.dropWhile_suffix _)
  apply chainU_reverse
  exact h.suffix (List.dropWhile_suffix _)

theorem stripU_head {cs : List Char} {y : Char}
    (h : (stripU cs).head? = some y) : y ≠ '_' := by
  unfold stripU at h
  rw [List.head?_reverse] at h
  have hne : ((cs.dropWhile (· = '_')).reverse.dropWhile (· = '_')) ≠ [] := by
    intro hnil
    rw [hnil] at h
    simp at h
  rw [getLast?_of_suffix (List.dropWhile_suffix _) hne,
    List.getLast?_reverse] at h
  have := head?_dropWhile_not _ _ _ h
  simpa using this

theorem stripU_last {cs : List Char} {y : Char}
    (h : (stripU cs).getLast? = some y) : y ≠ '_' := by
  unfold stripU at h
  rw [List.getLast?_reverse] at h
  have := head?_dropWhile_not _ _ _ h
  simpa using this

theorem dropWhile_id_of_head {p : Char → Bool} {l : List Char}
    (h : ∀ y, l.head? = some y → p y = false) : l.dropWhile p = l := by
  cases l with
  | nil => rfl
  | cons c cs =>
      rw [List.dropWhile_cons, if_neg (by simp [h c rfl])]

theorem stripU_fixed {cs : List Char}
    (hh : ∀ y, cs.head? = some y → y ≠ '_')
    (hl : ∀ y, cs.getLast? = some y → y ≠ '_') : stripU cs = cs := by
  have h1 : cs.dropWhile (· = '_') = cs :=
    dropWhile_id_of_head (fun y hy => by simpa using hh y hy)
  have h2 : cs.reverse.dropWhile (· = '_') = cs.reverse :=
    dropWhile_id_of_head (fun y hy => by
      rw [List.head?_reverse] at hy
      simpa using hl y hy)
  unfold stripU
  rw [h1, h2, List.reverse_reverse]

theorem stripU_cons_underscore (rest : List Char) :
    stripU ('_' :: rest) = stripU rest := by
  unfold stripU
  rw [List.dropWhile_cons, if_pos (by simp)]

theorem mk_data (r : String) : String.mk r.data = r := by
  cases r
  rfl

theorem headIsDigit_head {l : List Char} {y : Char} (h : headIsDigit l = true)
    (hy : l.head? = some y) : isAsciiDigit y = true := by
  cases l with
  | nil => simp [headIsDigit] at h
  | cons c t =>
      have hc : c = y := by simpa using hy
      rw [← hc]
      simpa [headIsDigit] using h

theorem headIsDigit_ne_nil {l : List Char} (h : headIsDigit l = true) :
    l ≠ [] := by
  intro hnil
  rw [hnil] at h
  simp [headIsDigit] at h

/-- Unfolded form of conversion-enabled `normalize_column_name` on a
non-empty name. -/
theorem normalize_column_name_conv (td : String → String) (name : String)
    (hne : name ≠ "") :
    normalize_column_name td name true =
      (if ((if headIsDigit (stripU (subNA (td name).data)) then
            '_' :: stripU (subNA (td name).data)
          else stripU (subNA (td name).data)).map lowerChar) = [] then "column"
       else String.mk ((if headIsDigit (stripU (subNA (td name).data)) then
            '_' :: stripU (subNA (td name).data)
          else stripU (subNA (td name).data)).map lowerChar)) := by
  unfold normalize_column_name
  rw [if_neg (by simp [hne])]

theorem mapLower_allW {c0 : List Char}
    (h : ∀ c ∈ c0, isAsciiAlnum c = true ∨ c = '_') :
    ∀ c ∈ c0.map lowerChar, isAsciiAlnum c = true ∨ c = '_' := by
  intro c hc
  rcases List.mem_map.mp hc with ⟨y, hy, rfl⟩
  rcases h y hy with h | h
  · exact Or.inl (isAsciiAlnum_lowerChar h)
  · right
    rw [h]
    decide

theorem mapLower_chain {c0 : List Char}
    (h : List.Chain' (fun a b => ¬(a = '_' ∧ b = '_')) c0) :
    List.Chain' (fun a b => ¬(a = '_' ∧ b = '_')) (c0.map lowerChar) := by
  rw [List.chain'_map]
  exact h.imp (fun a b hr hcon =>
    hr ⟨lowerChar_eq_underscore hcon.1, lowerChar_eq_underscore hcon.2⟩)

theorem mapLower_fixed (c0 : List Char) :
    (c0.map lowerChar).map lowerChar = c0.map lowerChar := by
  rw [List.map_map]
  exact List.map_congr_left (fun a _ => lowerChar_idem a)

theorem mapLower_getLast {c0 : List Char} (hne : c0 ≠ [])
    (hl : ∀ y, c0.getLast? = some y → y ≠ '_') :
    (c0.map lowerChar).getLast? ≠ some '_' := by
  rw [List.getLast?_map]
  cases hgl : c0.getLast? with
  | none => exact absurd (List.getLast?_eq_none_iff.mp hgl) hne
  | some z =>
      intro hcon
      have hz : lowerChar z = '_' := by simpa using hcon
      exact hl z hgl (lowerChar_eq_underscore hz)

/-- Core of the shape argument: the post-`re.sub`-and-strip character list
(any list of word characters with no adjacent underscores whose first and
last characters are not underscores) passes the digit-prefix, lowercase and
fallback steps into a `NormShape` result. -/
theorem normalize_shape_core (c0 : List Char)
    (hall0 : ∀ c ∈ c0, isAsciiAlnum c = true ∨ c = '_')
    (hch0 : List.Chain' (fun a b => ¬(a = '_' ∧ b = '_')) c0)
    (hhead0 : ∀ y, c0.head? = some y → y ≠ '_')
    (hlast0 : ∀ y, c0.getLast? = some y → y ≠ '_') :
    NormShape ((if ((if headIsDigit c0 then '_' :: c0 else c0).map lowerChar)
          = [] then "column"
        else String.mk
          ((if headIsDigit c0 then '_' :: c0 else c0).map lowerChar)).data) ∧
    (if ((if headIsDigit c0 then '_' :: c0 else c0).map lowerChar) = []
        then "column"
        else String.mk
          ((if headIsDigit c0 then '_' :: c0 else c0).map lowerChar))
      ≠ "" := by
  cases c0 with
  | nil =>
      show NormShape (("column" : String).data) ∧ ("column" : String) ≠ ""
      constructor
      · exact ⟨by decide, by simp [List.chain'_cons], by decide, by decide,
          by decide, by decide⟩
      · decide
  | cons y0 t0 =>
      by_cases hdig : headIsDigit (y0 :: t0) = true
      · have hy0 : isAsciiDigit y0 = true := headIsDigit_head hdig rfl
        rw [if_pos hdig, if_neg (by simp)]
        constructor
        · show NormShape (('_' :: y0 :: t0).map lowerChar)
          rw [List.map_cons, show lowerChar '_' = '_' from by decide]
          refine ⟨?_, ?_, ?_, ?_, ?_, ?_⟩
          · intro c hc
            rcases List.mem_cons.mp hc with hc | hc
            · exact Or.inr hc
            · exact mapLower_allW hall0 c hc
          · rw [List.chain'_cons']
            refine ⟨?_, mapLower_chain hch0⟩
            intro y hy hcon
            have hhm : ((y0 :: t0).map lowerChar).head? = some y :=
              Option.mem_def.mp hy
            rw [List.map_cons] at hhm
            have hyl : lowerChar y0 = y := by simpa using hhm
            rw [← hyl] at hcon
            exact digit_ne_underscore hy0 (lowerChar_eq_underscore hcon.2)
          · rw [List.map_cons, show lowerChar '_' = '_' from by decide,
              mapLower_fixed]
          · rw [List.getLast?_cons]
            cases hgl : ((y0 :: t0).map lowerChar).getLast? with
            | none =>
                rw [List.getLast?_eq_none_iff] at hgl
                simp at hgl
            | some w =>
                have hw : w ≠ '_' := by
                  have hne := @mapLower_getLast (y0 :: t0) (by simp) hlast0
                  rw [hgl] at hne
                  intro hcon
                  exact hne (by rw [hcon])
                intro hcon
                apply hw
                simpa using hcon
          · intro _
            show headIsDigit ((y0 :: t0).map lowerChar) = true
            rw [List.map_cons]
            show isAsciiDigit (lowerChar y0) = true
            rw [isAsciiDigit_lowerChar]
            exact hy0
          · intro hcon
            exact absurd rfl hcon
        · intro hcon
          have := congrArg String.data hcon
          simp at this
      · have hy0u : y0 ≠ '_' := hhead0 y0 rfl
        have hy0d : isAsciiDigit y0 = false := by
          have hh := hdig
          simp only [headIsDigit, Bool.not_eq_true] at hh
          exact hh
        rw [if_neg hdig, if_neg (by simp)]
        constructor
        · show NormShape ((y0 :: t0).map lowerChar)
          refine ⟨mapLower_allW hall0, mapLower_chain hch0, mapLower_fixed _,
            mapLower_getLast (by simp) hlast0, ?_, ?_⟩
          · intro hcon
            rw [List.map_cons] at hcon
            have hcu : lowerChar y0 = '_' := by simpa using hcon
            exact absurd (lowerChar_eq_underscore hcu) hy0u
          · intro _
            rw [List.map_cons]
            show isAsciiDigit (lowerChar y0) = false
            rw [isAsciiDigit_lowerChar]
            exact hy0d
        · intro hcon
          have := congrArg String.data hcon
          simp at this

/-- The output of conversion-enabled normalization on a non-empty name is
non-empty and satisfies the shape invariant. -/
theorem normalize_shape (td : String → String) (s : String) (hs : s ≠ "") :
    NormShape ((normalize_column_name td s true).data) ∧
    normalize_column_name td s true ≠ "" := by
  rw [normalize_column_name_conv td s hs]
  exact normalize_shape_core (stripU (subNA (td s).data))
    (fun c hc => (subNA_shape (td s).data).1 c (stripU_mem hc))
    (stripU_chain (subNA_shape (td s).data).2)
    (fun y hy => stripU_head hy)
    (fun y hy => stripU_last hy)

/-- Conversion-enabled normalization is the identity on non-empty strings
satisfying the shape invariant, provided the transliteration `td` fixes
lowercase `[a-z0-9_]` strings (true of `unidecode`, which is the identity on
ASCII). -/
theorem normalize_fixed (td : String → String)
    (H : ∀ t : String, (∀ c ∈ t.data, isAsciiAlnum c = true ∨ c = '_') →
      t.data.map lowerChar = t.data → td t = t)
    (r : String) (hne : r ≠ "") (hs : NormShape r.data) :
    normalize_column_name td r true = r := by
  obtain ⟨h1, h2, h3, h4, h5, h6⟩ := hs
  have htd : td r = r := H r h1 h3
  rw [normalize_column_name_conv td r hne, htd,
    subNA_fixed r.data h1 h2]
  cases hd : r.data with
  | nil =>
      exact absurd (by rw [← mk_data r, hd]) hne
  | cons c0h t0 =>
      by_cases hcu : c0h = '_'
      · subst hcu
        rw [hd] at h3 h4 h5
        have h5' : headIsDigit t0 = true := h5 rfl
        have ht0ne : t0 ≠ [] := headIsDigit_ne_nil h5'
        have hstrip : stripU ('_' :: t0) = t0 := by
          rw [stripU_cons_underscore]
          apply stripU_fixed
          · intro y hy
            exact digit_ne_underscore (headIsDigit_head h5' hy)
          · intro y hy hycon
            apply h4
            rw [List.getLast?_cons, hy, hycon]
            rfl
        rw [hstrip, if_pos h5', h3]
        rw [if_neg (by simp)]
        rw [← hd]
      · rw [hd] at h3 h4 h6
        have hstrip : stripU (c0h :: t0) = c0h :: t0 := by
          apply stripU_fixed
          · intro y hy
            have hcy : c0h = y := by simpa using hy
            exact hcy ▸ hcu
          · intro y hy hycon
            exact h4 (hycon ▸ hy)
        have hdigf : headIsDigit (c0h :: t0) = false :=
          h6 (by simpa using hcu)
        rw [hstrip, hdigf]
        rw [show (if false = true then '_' :: c0h :: t0 else c0h :: t0) =
          c0h :: t0 from by simp]
        rw [h3]
        rw [if_neg (show ¬(c0h :: t0) = [] from by simp)]
        rw [← hd]

/-- Claim C9: with name conversion enabled, `normalize("Order #1")` is
`"order_1"` (given that the transliteration fixes the ASCII string
"Order #1", as `unidecode` does), and normalization is idempotent for every
input string and either conversion setting, provided the transliteration
fixes lowercase `[a-z0-9_]` strings (as `unidecode`, the identity on ASCII,
does). -/
theorem claim_C9 (td : String → String)
    (H : ∀ t : String, (∀ c ∈ t.data, isAsciiAlnum c = true ∨ c = '_') →
      t.data.map lowerChar = t.data → td t = t) :
    (td "Order #1" = "Order #1" →
      normalize_column_name td "Order #1" true = "order_1") ∧
    (∀ (s : String) (conv : Bool),
      normalize_column_name td (normalize_column_name td s conv) conv =
        normalize_column_name td s conv) := by
  constructor
  · intro hOrd
    rw [normalize_column_name_conv td _ (by decide), hOrd]
    decide
  · intro s conv
    cases conv with
    | false => simp [normalize_column_name]
    | true =>
        by_cases hs : s = ""
        · subst hs
          rw [normalize_column_name_empty, normalize_column_name_empty]
        · obtain ⟨hshape, hne⟩ := normalize_shape td s hs
          exact normalize_fixed td H _ hne hshape

/-- Claim C9 witness: instantiation at the identity transliteration (the
behavior of `unidecode` on ASCII input) and the input "Order #1". -/
theorem claim_C9_witness :
    normalize_column_name (fun s => s) "Order #1" true = "order_1" ∧
    normalize_column_name (fun s => s)
      (normalize_column_name (fun s => s) "Order #1" true) true =
      normalize_column_name (fun s => s) "Order #1" true :=
  ⟨(claim_C9 (fun s => s) (fun _ _ _ => rfl)).1 rfl,
   (claim_C9 (fun s => s) (fun _ _ _ => rfl)).2 "Order #1" true⟩

end ExcelSheets
